import Mathlib

/-!
Shallow embedding of the core of the upvise feed-ingestion /
summarization bot (Python sources under app/), together with proofs of
the stated behavioural properties.

Conventions:
* Python strings are modelled as Lean `String` / `List Char`.
* Python sets of strings are modelled as duplicate-free `List String`
  with insert-if-absent.
* Network effects are modelled by passing the response (an oracle) as an
  explicit argument; functions additionally return the list of requests
  they issue so that "no external call is made" is a provable statement.
-/

namespace PyStr

/-- Characters matched by Python's `str.strip()` / `\s` (ASCII part). -/
def isWs (c : Char) : Bool :=
  c = ' ' || c = '\t' || c = '\n' || c = '\r' || c = '\x0b' || c = '\x0c'

/-- Python `s.strip()` on a character list. -/
def pyStrip (l : List Char) : List Char :=
  ((l.dropWhile isWs).reverse.dropWhile isWs).reverse

/-- Python `s.strip()` on a `String`. -/
def pyStripS (s : String) : String :=
  String.mk (pyStrip s.data)

/-- Python `s.lower()` (ASCII-faithful model of `str.lower`). -/
def pyLower (s : String) : String :=
  String.mk (s.data.map Char.toLower)

/-- Python `s.startswith(p)`, character-wise. -/
def pyStartsWith (s p : String) : Bool :=
  p.data.isPrefixOf s.data

/-- Python `s[:n]`, character-wise. -/
def pyTake (s : String) (n : Nat) : String :=
  String.mk (s.data.take n)

/-- Python `int(x)` on an all-digit string (the only inputs the embedded
code feeds it). -/
def digitsToNat (l : List Char) : Option Nat :=
  if l ≠ [] ∧ l.all Char.isDigit then
    some (l.foldl (fun n c => n * 10 + (c.toNat - 48)) 0)
  else none

/-- Splitting a character list at every occurrence of `c`
(Python `s.split(c)`). -/
def splitOnChar (c : Char) : List Char → List (List Char)
  | [] => [[]]
  | x :: xs =>
    let r := splitOnChar c xs
    if x = c then [] :: r else (x :: r.headD []) :: r.tail

end PyStr

namespace Summary
open PyStr

/-- Characters of the class `[•\-–—\*•\+\s]` in `_CLEAN_BULLET_PREFIX`
    (app/services/summary.py). -/
def isBulletWs (c : Char) : Bool :=
  c = '•' || c = '-' || c = '–' || c = '—' || c = '*' || c = '+' || isWs c

/-- One step of `re.sub(r"\s+", " ", b)`: every maximal whitespace run is
    replaced by a single space.  `prevWs` records whether the previous
    character belonged to a run already emitted. -/
def collapseGo : Bool → List Char → List Char
  | _, [] => []
  | prevWs, c :: rest =>
    if isWs c then
      if prevWs then collapseGo true rest
      else ' ' :: collapseGo true rest
    else c :: collapseGo false rest

/-- `re.sub(r"\s+", " ", b)`. -/
def collapseWs (l : List Char) : List Char := collapseGo false l

/-- The per-item normalisation done by `_dedupe_cap`
    (app/services/summary.py lines 66-80):
    `b = _CLEAN_BULLET_PREFIX.sub("", (b or "").strip())` followed by
    `b = re.sub(r"\s+", " ", b)`. -/
def cleanBullet (s : String) : String :=
  String.mk (collapseWs ((pyStrip s.data).dropWhile isBulletWs))

/-- The loop body of `_dedupe_cap`.  `seen` holds the lower-cased keys of
    the items already kept, `out` the kept items in reverse order.  The
    Python loop appends first and only then checks `len(out) >= cap`,
    which is reproduced exactly. -/
def dedupeCapGo (cap : Nat) : List String → List String → List String → List String
  | [], _, out => out.reverse
  | b :: rest, seen, out =>
    if (cleanBullet b).length < 8 then dedupeCapGo cap rest seen out
    else if pyLower (cleanBullet b) ∈ seen then dedupeCapGo cap rest seen out
    else if cap ≤ (cleanBullet b :: out).length then (cleanBullet b :: out).reverse
    else dedupeCapGo cap rest (pyLower (cleanBullet b) :: seen) (cleanBullet b :: out)

/-- `_dedupe_cap(bullets, cap)` from app/services/summary.py. -/
def dedupeCap (bullets : List String) (cap : Nat := 6) : List String :=
  dedupeCapGo cap bullets [] []

end Summary


namespace RSS

/-- A parsed feed entry as consumed by `RSSService` (feedparser attributes
accessed with `getattr(e, ..., None)`; `published_parsed` is modelled as a
Unix timestamp).  Only the attributes the embedded code reads are kept. -/
structure Entry where
  id : Option String := none
  link : Option String := none
  title : String := ""
  summary : Option String := none
  description : Option String := none
  published : Option Nat := none
deriving Repr, DecidableEq

/-- Python truthiness of an optional string attribute: `None` and the empty
string are falsy in `a or b`. -/
def truthy : Option String → Option String
  | none => none
  | some s => if s = "" then none else some s

/-- `RSSService.entry_id` (app/services/rss.py lines 252-257):
`getattr(e,"id",None) or getattr(e,"link",None) or
f"{title}_{int(mktime(published_parsed)) if published_parsed else ''}"`. -/
def entry_id (e : Entry) : String :=
  match truthy e.id with
  | some s => s
  | none =>
    match truthy e.link with
    | some s => s
    | none =>
      e.title ++ "_" ++ (match e.published with
        | some t => toString t
        | none => "")

/-- One accumulated keyword match as stored in
`self._keyword_global_matches[cid][kw]`: the tuple `(eid, e, f, url)`. -/
structure KwMatch where
  eid : String
  entry : Entry
  feedTitle : String
  url : String
deriving Repr, DecidableEq

/-- The chunking in `poll_once`
(`chunks = [filtered[i:i+10] for i in range(0, len(filtered), 10)]`,
app/services/rss.py): successive slices of ten. -/
def chunks10 {A : Type _} (l : List A) : List (List A) :=
  match l with
  | [] => []
  | a :: t => ((a :: t).take 10) :: chunks10 ((a :: t).drop 10)
termination_by l.length
decreasing_by
  simp only [List.length_drop, List.length_cons]
  omega

/-- The seen-marking performed by the digest flush after each chunk is
sent (`for _, e, _, url in chunk: eid = self.entry_id(e); seen =
self._get_seen_safe(...); seen.add(eid); self._set_seen_safe(...)`):
the ordered trace of `(source url, item id)` insertions. -/
def flushSeenOps (chunks : List (List KwMatch)) : List (String × String) :=
  (chunks.map (fun ch => ch.map (fun m => (m.url, entry_id m.entry)))).flatten

end RSS


namespace JsonStore

/-- The per-chat record of the JSON-file `StateStore`
(app/storage/state.py): `feeds` list and `seen` dict. -/
structure Chat where
  feeds : List String := []
  seen : List (String × List String) := []
deriving Repr, DecidableEq

/-- `StateStore.add_feed` (app/storage/state.py lines 110-126): returns
`False` and changes nothing when the url is already subscribed, else
appends the url, initialises its seen list (`seen.setdefault(url, [])`)
and returns `True`. -/
def add_feed (st : Chat) (url : String) : Bool × Chat :=
  if url ∈ st.feeds then (false, st)
  else
    (true,
      { st with
        feeds := st.feeds ++ [url],
        seen := if (st.seen.lookup url).isSome then st.seen
                else st.seen ++ [(url, [])] })

end JsonStore

namespace SqlStore

/-- The per-chat slice of `SQLiteStateStore` (app/storage/state.py):
the `feeds` rows in id order, the `seen` rows `(feed_url, item_id)` in id
order (`UNIQUE(chat_id, url)` and `UNIQUE(chat_id, feed_url, item_id)`
hold by construction), and the `feeds_history` JSON array. -/
structure Chat where
  feeds : List String := []
  seen : List (String × String) := []
  feedsHistory : List String := []
deriving Repr, DecidableEq

/-- `SQLiteStateStore.add_feed` (app/storage/state.py lines 513-536):
`INSERT INTO feeds` with the `sqlite3.IntegrityError` for a duplicate
swallowed by `except: pass`, then the url appended to `feeds_history` if
absent; the function ends with `return True` unconditionally. -/
def add_feed (st : Chat) (url : String) : Bool × Chat :=
  (true,
    { st with
      feeds := if url ∈ st.feeds then st.feeds else st.feeds ++ [url],
      feedsHistory :=
        if url ∈ st.feedsHistory then st.feedsHistory
        else st.feedsHistory ++ [url] })

/-- `SQLiteStateStore.get_seen`: the item ids recorded for `url`. -/
def get_seen (st : Chat) (url : String) : List String :=
  (st.seen.filter (fun r => r.1 = url)).map (fun r => r.2)

/-- The special-prefix test in `SQLiteStateStore.set_seen`:
`u.startswith("seen_admin::") or u.startswith("takhfifan_seen::")`. -/
def isSpecialSeenUrl (url : String) : Bool :=
  PyStr.pyStartsWith url "seen_admin::" || PyStr.pyStartsWith url "takhfifan_seen::"

/-- One `INSERT OR IGNORE INTO seen` row
(`UNIQUE(chat_id, feed_url, item_id)`). -/
def insertOrIgnore (rows : List (String × String)) (url item : String) :
    List (String × String) :=
  if (url, item) ∈ rows then rows else rows ++ [(url, item)]

/-- `SQLiteStateStore.set_seen` (app/storage/state.py lines 579-614):
for a non-special url the url is also inserted (`INSERT OR IGNORE`) into
the `feeds` table; then all `seen` rows of the url are deleted and the
given items inserted one by one. -/
def set_seen (st : Chat) (url : String) (items : List String) : Chat :=
  { st with
    feeds :=
      if isSpecialSeenUrl url then st.feeds
      else if url ∈ st.feeds then st.feeds else st.feeds ++ [url],
    seen :=
      items.foldl (fun rows it => insertOrIgnore rows url it)
        (st.seen.filter (fun r => r.1 ≠ url)) }

end SqlStore

namespace Svc

/-- The state an `RSSService` instance threads through the safe seen
accessors: the persistent store (one chat's slice) and the in-memory
`_admin_seen_cache` for that chat, keyed by feed url. -/
structure SvcState where
  store : SqlStore.Chat
  adminCache : List (String × List String) := []
deriving Repr, DecidableEq

/-- Python dict assignment `cache[key] = value` on an association list. -/
def cacheSet (c : List (String × List String)) (url : String)
    (v : List String) : List (String × List String) :=
  if (c.lookup url).isSome then
    c.map (fun p => if p.1 = url then (url, v) else p)
  else c ++ [(url, v)]

/-- `RSSService._get_seen_safe` (app/services/rss.py lines 516-533):
for an admin-curated url the user does not own, read the in-memory admin
cache; otherwise read the persistent store. -/
def getSeenSafe (adminFeeds : List String) (st : SvcState) (url : String) :
    List String :=
  if url ∈ adminFeeds ∧ url ∉ st.store.feeds then
    (st.adminCache.lookup url).getD []
  else SqlStore.get_seen st.store url

/-- `RSSService._set_seen_safe` (app/services/rss.py lines 535-551):
for an admin-curated url the user does not own, write only to the
in-memory admin cache; otherwise write through `store.set_seen`. -/
def setSeenSafe (adminFeeds : List String) (st : SvcState) (url : String)
    (seen : List String) : SvcState :=
  if url ∈ adminFeeds ∧ url ∉ st.store.feeds then
    { st with adminCache := cacheSet st.adminCache url seen }
  else { st with store := SqlStore.set_seen st.store url seen }

end Svc

namespace Fetch

/-- The outcome of one `httpx` GET: an exception, or a response with a
status code and body. -/
inductive HttpOutcome where
  | failed
  | ok (status : Nat) (body : String)
deriving Repr, DecidableEq

/-- `RSSService._fetch_feed` (app/services/rss.py lines 113-128): `None`
on any exception, `None` when `r.status_code >= 400`, else the result of
`feedparser.parse(r.content)` (a total parser passed in as `parse`;
feedparser never raises and yields a possibly empty entry list). -/
def fetchFeed (parse : String → List RSS.Entry) (resp : HttpOutcome) :
    Option (List RSS.Entry) :=
  match resp with
  | .failed => none
  | .ok status body => if 400 ≤ status then none else some (parse body)

/-- `RSSService.is_valid_feed` (app/services/rss.py lines 130-132):
`bool(f and f.entries)`. -/
def isValidFeed (parse : String → List RSS.Entry) (resp : HttpOutcome) :
    Bool :=
  match fetchFeed parse resp with
  | none => false
  | some entries => entries ≠ []

/-- The GET requests `RSSService._fetch_feed` issues for a url: the code
calls `c.get(url)` unconditionally inside its `try` block — no scheme or
private-host check precedes the request. -/
def rssFetchFeedRequests (url : String) : List String := [url]

/-- The GET requests `RSSService._get_html` issues for a url: likewise
unconditional. -/
def getHtmlRequests (url : String) : List String := [url]

end Fetch

namespace Fetcher
open PyStr

/-- `host = (netloc or "").split(":")[0].strip().lower()` in
`_is_private_host` (app/services/fetcher.py). -/
def hostOf (netloc : String) : String :=
  pyLower (pyStripS (String.mk (netloc.data.takeWhile (fun ch => ch ≠ ':'))))

/-- One group of the regex `\d{1,3}`: one to three digits. -/
def isDigitGroup (p : List Char) : Bool :=
  decide (1 ≤ p.length) && decide (p.length ≤ 3) && p.all Char.isDigit

/-- `re.fullmatch(r"\d{1,3}(?:\.\d{1,3}){3}", host)`. -/
def isIpv4Lit (host : String) : Bool :=
  decide ((PyStr.splitOnChar '.' host.data).length = 4)
    && (PyStr.splitOnChar '.' host.data).all isDigitGroup

/-- `_is_private_host` (app/services/fetcher.py lines 44-67). -/
def isPrivateHost (netloc : String) : Bool :=
  let host := hostOf netloc
  if host = "localhost" then true
  else if isIpv4Lit host then
    match (PyStr.splitOnChar '.' host.data).mapM PyStr.digitsToNat with
    | none => true
    | some octs =>
      decide (octs.getD 0 0 = 127) || decide (octs.getD 0 0 = 10)
      || (decide (octs.getD 0 0 = 192) && decide (octs.getD 1 0 = 168))
      || (decide (octs.getD 0 0 = 172)
          && decide (16 ≤ octs.getD 1 0) && decide (octs.getD 1 0 ≤ 31))
  else host = "::1" || PyStr.pyStartsWith host "fe80:"

/-- Case-insensitive substring containment (`re.search` of a fixed
lower-case literal with `re.I`, and `"html" in ct.lower()`). -/
def containsSub (hay pat : String) : Bool :=
  decide (pat.data <:+: (pyLower hay).data)

/-- The default `botwall_pattern` alternatives (app/config fallback in
fetcher.py). -/
def BOTWALL : List String :=
  ["enable javascript", "just a moment", "cloudflare", "access denied",
   "verify you are a human"]

/-- `_BOTWALL_PAT.search(html)`. -/
def botwall (s : String) : Bool := BOTWALL.any (fun p => containsSub s p)

/-- `_MAX_HTML_BYTES` default (`fetcher_max_html_bytes`, 500_000). -/
def maxHtmlChars : Nat := 500000

/-- A url as produced by `urlparse`: the fields `fetch_article_text`
reads. -/
structure UrlParts where
  scheme : String
  netloc : String
deriving Repr, DecidableEq

/-- The accept logic shared by every fetched page in
`fetch_article_text` / `_try_amp_or_mobile`: reject on exception, on
status >= 400, on non-html content type; truncate the body to
`_MAX_HTML_BYTES`; reject a bot-wall body. -/
def acceptBody (o : Fetch.HttpOutcome) (contentType : String) :
    Option String :=
  match o with
  | .failed => none
  | .ok st body =>
    if 400 ≤ st then none
    else if !(containsSub contentType "html") then none
    else
      let html := PyStr.pyTake body maxHtmlChars
      if botwall html then none else some html

/-- One candidate response in the AMP/mobile probing chain, with its
content type. -/
structure Variant where
  outcome : Fetch.HttpOutcome
  contentType : String

/-- `_try_amp_or_mobile` plus the `<link rel=amphtml>` probe: the
variants are tried in order, the first accepted body wins; the number of
probes made is also returned. -/
def probeVariants : List Variant → Option String × Nat
  | [] => (none, 0)
  | v :: rest =>
    match acceptBody v.outcome v.contentType with
    | some h => (some h, 1)
    | none =>
      let r := probeVariants rest
      (r.1, r.2 + 1)

/-- The environment of one `fetch_article_text` run: the main-page
response, the AMP/mobile candidate responses, and the pure
BeautifulSoup-based helpers `_extract_main_text` and
`_append_meta_description` (abstracted as functions). -/
structure FetchEnv where
  main : Fetch.HttpOutcome
  mainContentType : String
  variants : List Variant
  extract : String → String
  metaDesc : String → String → String

/-- The tail of `fetch_article_text`: append the meta description when
the text is short, strip, and return `""` when still under 120 chars. -/
def finishText (env : FetchEnv) (text html : String) : String :=
  let text2 := if text.length < 250 then env.metaDesc html text else text
  let text3 := PyStr.pyStripS text2
  if text3.length < 120 then "" else text3

/-- `fetch_article_text` (app/services/fetcher.py lines 197-248),
returning the extracted text together with the number of HTTP requests
issued.  The SSRF guard runs before any request. -/
def fetchArticleText (u : UrlParts) (env : FetchEnv) : String × Nat :=
  if !(u.scheme = "http" || u.scheme = "https") || u.netloc = "" then ("", 0)
  else if isPrivateHost u.netloc then ("", 0)
  else
    match env.main with
    | .failed => ("", 1)
    | .ok st body =>
      if 400 ≤ st then ("", 1)
      else if !(containsSub env.mainContentType "html") then ("", 1)
      else
        let html := PyStr.pyTake body maxHtmlChars
        if botwall html then ("", 1)
        else
          let text := env.extract html
          if text.length < 300 then
            let probed := probeVariants env.variants
            match probed.1 with
            | some ah =>
              let ampText := env.extract ah
              if text.length < ampText.length then
                (finishText env ampText ah, 1 + probed.2)
              else (finishText env text html, 1 + probed.2)
            | none => (finishText env text html, 1 + probed.2)
          else (finishText env text html, 1)

end Fetcher

namespace Summary

/-- The result tuple of `Summarizer.summarize_full`:
`(tldr, bullets, opportunities, risks, signal)`. -/
def SummaryResult := String × List String × List String × List String × String

/-- The empty result `("", [], [], [], "")`. -/
def emptyResult : SummaryResult := ("", [], [], [], "")

/-- The dict produced by `extract_from_raw`, restricted to the keys the
caller reads. -/
structure Parsed where
  tldr : Option String := none
  bullets : List String := []
  opportunities : List String := []
  risks : List String := []
  signal : Option String := none

/-- Truthiness of
`parsed.get("tldr") or parsed.get("bullets") or ... or parsed.get("signal")`. -/
def hasAny (p : Parsed) : Bool :=
  decide (p.tldr.getD "" ≠ "") || decide (p.bullets ≠ [])
  || decide (p.opportunities ≠ []) || decide (p.risks ≠ [])
  || decide (p.signal.getD "" ≠ "")

/-- `extract_from_raw` begins with `if not raw: return {}`; the rest of
the heuristic (JSON extraction, labelled lines, bullet lines) is the
abstract `extract` parameter. -/
def extractFR (extract : String → Parsed) (raw : String) : Parsed :=
  if raw = "" then {} else extract raw

/-- The circuit-breaker fields set up by `Summarizer.__init__`
(app/services/summary.py lines 290-294): `self._fail_count = 0` and
`self._cooldown_until = None`.  `summarize_full` neither reads nor
writes them. -/
structure CbState where
  failCount : Nat := 0
  cooldownUntil : Option Nat := none
deriving Repr, DecidableEq

/-- The fresh state `__init__` creates. -/
def initState : CbState := {}

/-- The config default `summary_cb_errors = 5` (app/config.py line 111):
the intended consecutive-failure threshold of the circuit breaker. -/
def cbErrorThreshold : Nat := 5

/-- The staged attempt loop of `summarize_full`: `k` prompts remain,
`i` external calls were made so far, `rawCollected` is the last
non-empty raw answer.  An empty raw answer (a failed call) is skipped;
a parse with any truthy key stops the loop. -/
def attemptLoop (oracle : Nat → String) (extract : String → Parsed) :
    Nat → Nat → String → Option Parsed × String × Nat
  | 0, i, rawCollected => (none, rawCollected, i)
  | k + 1, i, rawCollected =>
    let raw := oracle i
    if raw = "" then attemptLoop oracle extract k (i + 1) rawCollected
    else
      let parsed := extractFR extract raw
      if hasAny parsed then (some parsed, raw, i + 1)
      else attemptLoop oracle extract k (i + 1) raw

/-- The number of prompts in `prompt_sequence`: three staged prompts,
plus the tldr-only and bullets-only prompts when the input is short
(`summary_short_threshold` default 120), truncated to
`summary_max_attempts` default 6. -/
def promptCount (base : String) : Nat :=
  min (if base.length < 120 then 5 else 3) 6

/-- The tail of `summarize_full`: field extraction, `_dedupe_cap` on the
three lists (caps default `summary_max_bullets = 4`), and
`_force_lang_full` (language detection + translation, an external
dependency abstracted as `forceLang`). -/
def finishParsed (forceLang : SummaryResult → SummaryResult) (p : Parsed) :
    SummaryResult :=
  let tldr := PyStr.pyStripS (p.tldr.getD "")
  let bullets := dedupeCap p.bullets 4
  let opportunities := dedupeCap p.opportunities 4
  let risks := dedupeCap p.risks 4
  let signal := PyStr.pyStripS (p.signal.getD "")
  forceLang (tldr, bullets, opportunities, risks, signal)

/-- The `base` input text computed at the top of `summarize_full`:
`text if len(text) > summary_lite_min_len else f"{title}\\n{text}"`,
stripped. -/
def baseOf (title text : String) : String :=
  PyStr.pyStripS
    (if 120 < (PyStr.pyStripS text).length then PyStr.pyStripS text
     else PyStr.pyStripS title ++ "\n" ++ PyStr.pyStripS text)

/-- `Summarizer.summarize_full` (app/services/summary.py lines 296-485),
as a state transformer on the circuit-breaker state, also counting the
external model calls made.  `hasKey` models `genai and self.api_key`,
`initOk` the `genai.configure`/`GenerativeModel` try block, `oracle i`
the raw text of the `i`-th `_call_ai` ("" when the call raised), and
`extract` the body of `extract_from_raw` on non-empty input.  The
source never touches `self._fail_count` or `self._cooldown_until`
inside this method, so the state is returned unchanged on every path. -/
def summarizeFull (hasKey initOk : Bool) (oracle : Nat → String)
    (extract : String → Parsed) (forceLang : SummaryResult → SummaryResult)
    (title text : String) (st : CbState) : SummaryResult × CbState × Nat :=
  let base := baseOf title text
  if base = "" then (emptyResult, st, 0)
  else if !hasKey then (emptyResult, st, 0)
  else if !initOk then (emptyResult, st, 0)
  else
    match attemptLoop oracle extract (promptCount base) 0 "" with
    | (some p, _, calls) => (finishParsed forceLang p, st, calls)
    | (none, rawCollected, calls) =>
      let raw := oracle calls
      let p2 := extractFR extract raw
      if decide (p2.tldr.getD "" ≠ "") || decide (p2.bullets ≠ []) then
        (finishParsed forceLang p2, st, calls + 1)
      else if rawCollected ≠ "" then
        (finishParsed forceLang (extractFR extract rawCollected), st, calls + 1)
      else (emptyResult, st, calls + 1)

/-- `n` successive invocations of a summarization call, threading the
circuit-breaker state. -/
def iterCalls (f : CbState → SummaryResult × CbState × Nat) :
    Nat → CbState → CbState
  | 0, st => st
  | n + 1, st => iterCalls f n (f st).2.1

end Summary

namespace Poll

/-- The `new_entries` construction of the generic branch of
`RSSService._process_feed` (app/services/rss.py lines 729-737): walk the
first `cap` listed entries, skip empty ids and ids already seen, keep
`(eid, e)` in listed order. -/
def newEntries (entries : List RSS.Entry) (seen : List String) (cap : Nat) :
    List (String × RSS.Entry) :=
  (entries.take cap).filterMap (fun e =>
    let eid := RSS.entry_id e
    if eid = "" ∨ eid ∈ seen then none else some (eid, e))

/-- The delivery loop `for eid, e in reversed(new_entries)` with every
send succeeding (the minimal title-only template always renders, so each
iteration sends exactly one message, adds `eid` to the seen set and
persists it).  Returns the ids in send order and the final seen set. -/
def deliverLoop : List (String × RSS.Entry) → List String →
    List String × List String
  | [], seen => ([], seen)
  | (eid, _) :: rest, seen =>
    let seen2 := if eid ∈ seen then seen else seen ++ [eid]
    let r := deliverLoop rest seen2
    (eid :: r.1, r.2)

/-- The generic feed-delivery path of `_process_feed` for one
(subscriber, source): build `new_entries` under the per-feed cap, then
deliver them in reverse listed order. -/
def processFeedGeneric (entries : List RSS.Entry) (seen0 : List String)
    (cap : Nat) : List String × List String :=
  deliverLoop (newEntries entries seen0 cap).reverse seen0

end Poll


/-! ### Helper lemmas -/

namespace Summary
open PyStr

theorem dropWhile_head_not (p : Char → Bool) (d : List Char) :
    ∀ c, (d.dropWhile p).head? = some c → p c = false := by
  induction d with
  | nil => intro c h; simp [List.dropWhile] at h
  | cons a t ih =>
    intro c h
    cases hp : p a with
    | true => rw [List.dropWhile_cons, hp, if_pos rfl] at h; exact ih c h
    | false =>
      rw [List.dropWhile_cons, hp] at h
      simp at h
      rw [← h]; exact hp

theorem collapseGo_head_true (r : List Char) :
    ∀ c, (collapseGo true r).head? = some c → isWs c = false := by
  induction r with
  | nil => intro c h; simp [collapseGo] at h
  | cons a rest ih =>
    intro c h
    by_cases ha : isWs a
    · rw [show collapseGo true (a :: rest) = collapseGo true rest by
        simp [collapseGo, ha]] at h
      exact ih c h
    · rw [show collapseGo true (a :: rest) = a :: collapseGo false rest by
        simp [collapseGo, ha]] at h
      simp at h
      rw [← h]; simpa using ha

theorem collapseGo_chain (b : Bool) (r : List Char) :
    (collapseGo b r).Chain' (fun x y => ¬(isWs x = true ∧ isWs y = true)) := by
  induction r generalizing b with
  | nil => simp [collapseGo]
  | cons a rest ih =>
    by_cases ha : isWs a
    · cases b with
      | true =>
        rw [show collapseGo true (a :: rest) = collapseGo true rest by
          simp [collapseGo, ha]]
        exact ih true
      | false =>
        rw [show collapseGo false (a :: rest) = ' ' :: collapseGo true rest by
          simp [collapseGo, ha]]
        rw [List.chain'_cons']
        refine ⟨?_, ih true⟩
        intro y hy hcon
        have := collapseGo_head_true rest y hy
        rw [this] at hcon
        exact absurd hcon.2 (by simp)
    · rw [show collapseGo b (a :: rest) = a :: collapseGo false rest by
        simp [collapseGo, ha]]
      rw [List.chain'_cons']
      refine ⟨?_, ih false⟩
      intro y _ hcon
      exact absurd hcon.1 (by simp [ha])

theorem collapseGo_cons_not_ws (r : List Char) (c0 : Char)
    (hc0 : isWs c0 = false) :
    collapseGo false (c0 :: r) = c0 :: collapseGo false r := by
  simp [collapseGo, hc0]

/-- The cleaned bullet never starts with a bullet marker or whitespace. -/
theorem cleanBullet_head (s : String) :
    ∀ c, (cleanBullet s).data.head? = some c → isBulletWs c = false := by
  intro c h
  have h2 : (collapseWs ((pyStrip s.data).dropWhile isBulletWs)).head? = some c := h
  cases hm2 : (pyStrip s.data).dropWhile isBulletWs with
  | nil => rw [hm2] at h2; simp [collapseWs, collapseGo] at h2
  | cons a t =>
    have ha : isBulletWs a = false := by
      apply dropWhile_head_not isBulletWs (pyStrip s.data)
      rw [hm2]; rfl
    have haw : isWs a = false := by
      cases hws : isWs a
      · rfl
      · exfalso
        have hcon : isBulletWs a = true := by simp [isBulletWs, hws]
        rw [hcon] at ha; exact absurd ha (by simp)
    rw [hm2, show collapseWs (a :: t) = collapseGo false (a :: t) from rfl,
      collapseGo_cons_not_ws t a haw] at h2
    simp at h2
    rw [← h2]; exact ha

/-- The cleaned bullet never contains two adjacent whitespace characters. -/
theorem cleanBullet_no_double_ws (s : String) :
    (cleanBullet s).data.Chain' (fun x y => ¬(isWs x = true ∧ isWs y = true)) := by
  exact collapseGo_chain false _

theorem dedupeCapGo_length (cap : Nat) (l seen out : List String)
    (h : out.length < cap) :
    (dedupeCapGo cap l seen out).length ≤ cap := by
  induction l generalizing seen out with
  | nil => simpa [dedupeCapGo] using Nat.le_of_lt h
  | cons b rest ih =>
    rw [dedupeCapGo]
    by_cases h8 : (cleanBullet b).length < 8
    · rw [if_pos h8]; exact ih seen out h
    · rw [if_neg h8]
      by_cases hk : pyLower (cleanBullet b) ∈ seen
      · rw [if_pos hk]; exact ih seen out h
      · rw [if_neg hk]
        by_cases hcap : cap ≤ (cleanBullet b :: out).length
        · rw [if_pos hcap]
          simp only [List.length_reverse, List.length_cons]
          simp only [List.length_cons] at hcap
          omega
        · rw [if_neg hcap]
          apply ih
          simpa using Nat.lt_of_not_le hcap

theorem dedupeCapGo_split (cap : Nat) (l seen out : List String) :
    ∃ s, dedupeCapGo cap l seen out = out.reverse ++ s ∧
      s.Sublist (l.map cleanBullet) := by
  induction l generalizing seen out with
  | nil => exact ⟨[], by simp [dedupeCapGo]⟩
  | cons b rest ih =>
    rw [dedupeCapGo]
    by_cases h8 : (cleanBullet b).length < 8
    · obtain ⟨s, hs, hsub⟩ := ih seen out
      exact ⟨s, by rw [if_pos h8]; exact hs,
        by simpa using hsub.cons (cleanBullet b)⟩
    · rw [if_neg h8]
      by_cases hk : pyLower (cleanBullet b) ∈ seen
      · obtain ⟨s, hs, hsub⟩ := ih seen out
        exact ⟨s, by rw [if_pos hk]; exact hs,
          by simpa using hsub.cons (cleanBullet b)⟩
      · rw [if_neg hk]
        by_cases hcap : cap ≤ (cleanBullet b :: out).length
        · exact ⟨[cleanBullet b], by rw [if_pos hcap]; simp, by simp⟩
        · rw [if_neg hcap]
          obtain ⟨s, hs, hsub⟩ :=
            ih (pyLower (cleanBullet b) :: seen) (cleanBullet b :: out)
          refine ⟨cleanBullet b :: s, ?_, ?_⟩
          · rw [hs]; simp
          · have : List.Sublist (cleanBullet b :: s)
                (cleanBullet b :: rest.map cleanBullet) := hsub.cons₂ _
            simpa using this

theorem dedupeCapGo_mem_pairwise (cap : Nat) (l seen out : List String)
    (hout : ∀ x ∈ out, pyLower x ∈ seen ∧ 8 ≤ x.length)
    (hpw : out.Pairwise (fun a b => pyLower a ≠ pyLower b)) :
    (∀ x ∈ dedupeCapGo cap l seen out,
        (x ∈ out ∨ ∃ y ∈ l, x = cleanBullet y) ∧ 8 ≤ x.length) ∧
      (dedupeCapGo cap l seen out).Pairwise
        (fun a b => pyLower a ≠ pyLower b) := by
  induction l generalizing seen out with
  | nil =>
    refine ⟨?_, ?_⟩
    · intro x hx
      simp only [dedupeCapGo, List.mem_reverse] at hx
      exact ⟨Or.inl hx, (hout x hx).2⟩
    · simpa [dedupeCapGo, List.pairwise_reverse] using
        hpw.imp (fun h => Ne.symm h)
  | cons b rest ih =>
    rw [dedupeCapGo]
    by_cases h8 : (cleanBullet b).length < 8
    · rw [if_pos h8]
      obtain ⟨hmem, hpw2⟩ := ih seen out hout hpw
      refine ⟨?_, hpw2⟩
      intro x hx
      obtain ⟨hor, hlen⟩ := hmem x hx
      exact ⟨hor.imp_right (fun ⟨y, hy, he⟩ => ⟨y, List.mem_cons_of_mem _ hy, he⟩), hlen⟩
    · rw [if_neg h8]
      by_cases hk : pyLower (cleanBullet b) ∈ seen
      · rw [if_pos hk]
        obtain ⟨hmem, hpw2⟩ := ih seen out hout hpw
        refine ⟨?_, hpw2⟩
        intro x hx
        obtain ⟨hor, hlen⟩ := hmem x hx
        exact ⟨hor.imp_right (fun ⟨y, hy, he⟩ => ⟨y, List.mem_cons_of_mem _ hy, he⟩), hlen⟩
      · rw [if_neg hk]
        have hout2 : ∀ x ∈ cleanBullet b :: out,
            pyLower x ∈ pyLower (cleanBullet b) :: seen ∧ 8 ≤ x.length := by
          intro x hx
          rcases List.mem_cons.mp hx with h | h
          · subst h; exact ⟨List.mem_cons_self _ _, Nat.le_of_not_lt h8⟩
          · exact ⟨List.mem_cons_of_mem _ (hout x h).1, (hout x h).2⟩
        have hpw2 : (cleanBullet b :: out).Pairwise
            (fun a b => pyLower a ≠ pyLower b) := by
          refine List.pairwise_cons.mpr ⟨?_, hpw⟩
          intro x hx heq
          exact hk (heq ▸ (hout x hx).1)
        by_cases hcap : cap ≤ (cleanBullet b :: out).length
        · rw [if_pos hcap]
          refine ⟨?_, ?_⟩
          · intro x hx
            rw [List.mem_reverse] at hx
            rcases List.mem_cons.mp hx with h | h
            · exact ⟨Or.inr ⟨b, List.mem_cons_self _ _, h⟩, h ▸ Nat.le_of_not_lt h8⟩
            · exact ⟨Or.inl h, (hout x h).2⟩
          · rw [List.pairwise_reverse]
            exact hpw2.imp (fun h => Ne.symm h)
        · rw [if_neg hcap]
          obtain ⟨hmem, hpw3⟩ :=
            ih (pyLower (cleanBullet b) :: seen) (cleanBullet b :: out) hout2 hpw2
          refine ⟨?_, hpw3⟩
          intro x hx
          obtain ⟨hor, hlen⟩ := hmem x hx
          refine ⟨?_, hlen⟩
          rcases hor with h | ⟨y, hy, he⟩
          · rcases List.mem_cons.mp h with h | h
            · exact Or.inr ⟨b, List.mem_cons_self _ _, h⟩
            · exact Or.inl h
          · exact Or.inr ⟨y, List.mem_cons_of_mem _ hy, he⟩


theorem find?_append_of_none {A : Type _} (p : A → Bool) (pre l : List A)
    (h : ∀ y ∈ pre, p y = false) : (pre ++ l).find? p = l.find? p := by
  induction pre with
  | nil => rfl
  | cons a t ih =>
    rw [List.cons_append,
      List.find?_cons_of_neg _ (by simp [h a (List.mem_cons_self _ _)])]
    exact ih (fun y hy => h y (List.mem_cons_of_mem _ hy))

theorem dedupeCapGo_firstOcc (cap : Nat) (l0 : List String) :
    ∀ (l pre seen out : List String),
      l0 = pre ++ l →
      (∀ y ∈ pre, 8 ≤ (cleanBullet y).length → pyLower (cleanBullet y) ∈ seen) →
      (∀ x ∈ out,
        (l0.find? (fun b => decide (8 ≤ (cleanBullet b).length)
          && (pyLower (cleanBullet b) == pyLower x))).map cleanBullet = some x) →
      ∀ x ∈ dedupeCapGo cap l seen out,
        (l0.find? (fun b => decide (8 ≤ (cleanBullet b).length)
          && (pyLower (cleanBullet b) == pyLower x))).map cleanBullet = some x := by
  intro l
  induction l with
  | nil =>
    intro pre seen out hl0 hseen hout x hx
    simp only [dedupeCapGo, List.mem_reverse] at hx
    exact hout x hx
  | cons b rest ih =>
    intro pre seen out hl0 hseen hout x hx
    rw [dedupeCapGo] at hx
    by_cases h8 : (cleanBullet b).length < 8
    · rw [if_pos h8] at hx
      refine ih (pre ++ [b]) seen out ?_ ?_ hout x hx
      · rw [hl0, List.append_assoc]; rfl
      · intro y hy hq
        rcases List.mem_append.mp hy with h | h
        · exact hseen y h hq
        · exfalso
          simp at h
          subst h
          omega
    · rw [if_neg h8] at hx
      by_cases hk : pyLower (cleanBullet b) ∈ seen
      · rw [if_pos hk] at hx
        refine ih (pre ++ [b]) seen out ?_ ?_ hout x hx
        · rw [hl0, List.append_assoc]; rfl
        · intro y hy hq
          rcases List.mem_append.mp hy with h | h
          · exact hseen y h hq
          · simp at h
            subst h
            exact hk
      · rw [if_neg hk] at hx
        have hfind : (l0.find? (fun y => decide (8 ≤ (cleanBullet y).length)
            && (pyLower (cleanBullet y) == pyLower (cleanBullet b)))).map
              cleanBullet = some (cleanBullet b) := by
          rw [hl0, find?_append_of_none]
          · rw [List.find?_cons_of_pos _
              (by simp [Nat.le_of_not_lt h8])]
            rfl
          · intro y hy
            by_cases hq : 8 ≤ (cleanBullet y).length
            · have hky := hseen y hy hq
              have hne : ¬(pyLower (cleanBullet y) = pyLower (cleanBullet b)) :=
                fun he => hk (he ▸ hky)
              simp [hne]
            · simp [hq]
        by_cases hcap : cap ≤ (cleanBullet b :: out).length
        · rw [if_pos hcap] at hx
          rw [List.mem_reverse] at hx
          rcases List.mem_cons.mp hx with h | h
          · subst h
            exact hfind
          · exact hout x h
        · rw [if_neg hcap] at hx
          refine ih (pre ++ [b]) (pyLower (cleanBullet b) :: seen)
            (cleanBullet b :: out) ?_ ?_ ?_ x hx
          · rw [hl0, List.append_assoc]; rfl
          · intro y hy hq
            rcases List.mem_append.mp hy with h | h
            · exact List.mem_cons_of_mem _ (hseen y h hq)
            · simp at h
              subst h
              exact List.mem_cons_self _ _
          · intro z hz
            rcases List.mem_cons.mp hz with h | h
            · subst h
              exact hfind
            · exact hout z h

end Summary

namespace RSS

theorem chunks10_nil {A : Type _} : chunks10 ([] : List A) = [] := by
  rw [chunks10]

theorem chunks10_cons {A : Type _} (a : A) (t : List A) :
    chunks10 (a :: t) = ((a :: t).take 10) :: chunks10 ((a :: t).drop 10) := by
  rw [chunks10]

theorem chunks10_ne_nil {A : Type _} (l : List A) (h : l ≠ []) :
    chunks10 l ≠ [] := by
  cases l with
  | nil => exact absurd rfl h
  | cons a t => rw [chunks10_cons]; simp

theorem chunks10_flatten {A : Type _} (l : List A) :
    (chunks10 l).flatten = l := by
  match l with
  | [] => rw [chunks10_nil]; rfl
  | a :: t =>
    rw [chunks10_cons]
    simp only [List.flatten_cons]
    rw [chunks10_flatten ((a :: t).drop 10)]
    exact List.take_append_drop 10 (a :: t)
termination_by l.length
decreasing_by simp only [List.length_drop, List.length_cons]; omega

theorem chunks10_length {A : Type _} (l : List A) :
    (chunks10 l).length = (l.length + 9) / 10 := by
  match l with
  | [] => rw [chunks10_nil]; simp
  | a :: t =>
    rw [chunks10_cons]
    simp only [List.length_cons]
    rw [chunks10_length ((a :: t).drop 10)]
    simp only [List.length_drop, List.length_cons]
    omega
termination_by l.length
decreasing_by simp only [List.length_drop, List.length_cons]; omega

theorem chunks10_mem {A : Type _} (l : List A) :
    ∀ ch ∈ chunks10 l, ch.length ≤ 10 ∧ ch ≠ [] := by
  match l with
  | [] => rw [chunks10_nil]; intro ch hch; simp at hch
  | a :: t =>
    rw [chunks10_cons]
    intro ch hch
    rcases List.mem_cons.mp hch with h | h
    · subst h
      refine ⟨by simp, by simp⟩
    · exact chunks10_mem ((a :: t).drop 10) ch h
termination_by l.length
decreasing_by simp only [List.length_drop, List.length_cons]; omega

theorem chunks10_dropLast {A : Type _} (l : List A) :
    ∀ ch ∈ (chunks10 l).dropLast, ch.length = 10 := by
  match l with
  | [] => rw [chunks10_nil]; intro ch hch; simp at hch
  | a :: t =>
    rw [chunks10_cons]
    cases hd : chunks10 ((a :: t).drop 10) with
    | nil => intro ch hch; simp at hch
    | cons c cs =>
      rw [List.dropLast_cons₂]
      intro ch hch
      rcases List.mem_cons.mp hch with h | h
      · subst h
        have hdne : (a :: t).drop 10 ≠ [] := by
          intro hcon
          rw [hcon, chunks10_nil] at hd
          exact absurd hd (by simp)
        have h10 : 10 < (a :: t).length := by
          by_contra hle
          push_neg at hle
          exact hdne (List.drop_eq_nil_of_le hle)
        simp only [List.length_take, List.length_cons]
        simp only [List.length_cons] at h10
        omega
      · have := chunks10_dropLast ((a :: t).drop 10)
        rw [hd] at this
        exact this ch h
termination_by l.length
decreasing_by simp only [List.length_drop, List.length_cons]; omega

theorem chunks10_last {A : Type _} (l : List A) :
    l ≠ [] → l.length % 10 ≠ 0 →
    ∃ ch, (chunks10 l).getLast? = some ch ∧ ch.length = l.length % 10 := by
  match l with
  | [] => intro hne _; exact absurd rfl hne
  | a :: t =>
    intro _ hmod
    by_cases hd : (a :: t).drop 10 = []
    · have hlen : (a :: t).length ≤ 10 := by
        by_contra hle
        push_neg at hle
        have hne2 : (a :: t).drop 10 ≠ [] := by
          intro hcon
          have := congrArg List.length hcon
          simp only [List.length_drop, List.length_nil] at this
          omega
        exact hne2 hd
      rw [chunks10_cons, hd, chunks10_nil]
      refine ⟨(a :: t).take 10, rfl, ?_⟩
      simp only [List.length_take, List.length_cons]
      simp only [List.length_cons] at hlen hmod
      omega
    · have h10 : 10 < (a :: t).length := by
        by_contra hle
        push_neg at hle
        exact hd (List.drop_eq_nil_of_le hle)
      have hmod2 : ((a :: t).drop 10).length % 10 ≠ 0 := by
        simp only [List.length_drop]
        simp only [List.length_cons] at hmod h10 ⊢
        omega
      obtain ⟨ch, hlast, hlen⟩ := chunks10_last ((a :: t).drop 10) hd hmod2
      refine ⟨ch, ?_, ?_⟩
      · rw [chunks10_cons]
        cases hcc : chunks10 ((a :: t).drop 10) with
        | nil => exact absurd hcc (chunks10_ne_nil _ hd)
        | cons c cs =>
          rw [List.getLast?_cons_cons]
          rw [hcc] at hlast
          exact hlast
      · rw [hlen]
        simp only [List.length_drop]
        simp only [List.length_cons] at h10 ⊢
        omega
termination_by l.length
decreasing_by simp only [List.length_drop, List.length_cons]; omega

theorem flushSeenOps_chunks (l : List KwMatch) :
    flushSeenOps (chunks10 l) = l.map (fun m => (m.url, entry_id m.entry)) := by
  unfold flushSeenOps
  rw [← List.map_flatten, chunks10_flatten]

end RSS


theorem nodup_append_single {A : Type _} {l : List A} {u : A}
    (h : l.Nodup) (hu : u ∉ l) : (l ++ [u]).Nodup := by
  rw [List.nodup_append]
  refine ⟨h, List.nodup_singleton _, ?_⟩
  intro x hx hx2
  simp at hx2
  subst hx2
  exact hu hx


namespace SqlStore

theorem mem_foldl_insertOrIgnore (url : String) (items : List String)
    (rows : List (String × String)) (p : String × String) :
    p ∈ items.foldl (fun rs it => insertOrIgnore rs url it) rows
      ↔ p ∈ rows ∨ (p.1 = url ∧ p.2 ∈ items) := by
  induction items generalizing rows with
  | nil => simp
  | cons it its ih =>
    rw [List.foldl_cons, ih]
    unfold insertOrIgnore
    by_cases hmem : (url, it) ∈ rows
    · rw [if_pos hmem]
      constructor
      · rintro (h | ⟨h1, h2⟩)
        · exact Or.inl h
        · exact Or.inr ⟨h1, List.mem_cons_of_mem _ h2⟩
      · rintro (h | ⟨h1, h2⟩)
        · exact Or.inl h
        · rcases List.mem_cons.mp h2 with h3 | h3
          · left
            have hp : p = (url, it) := by
              obtain ⟨p1, p2⟩ := p
              simp at h1 h3
              rw [h1, h3]
            rw [hp]
            exact hmem
          · exact Or.inr ⟨h1, h3⟩
    · rw [if_neg hmem]
      constructor
      · rintro (h | ⟨h1, h2⟩)
        · rcases List.mem_append.mp h with h3 | h3
          · exact Or.inl h3
          · simp at h3
            subst h3
            exact Or.inr ⟨rfl, List.mem_cons_self _ _⟩
        · exact Or.inr ⟨h1, List.mem_cons_of_mem _ h2⟩
      · rintro (h | ⟨h1, h2⟩)
        · exact Or.inl (List.mem_append_left _ h)
        · rcases List.mem_cons.mp h2 with h3 | h3
          · left
            apply List.mem_append_right
            have hp : p = (url, it) := by
              obtain ⟨p1, p2⟩ := p
              simp at h1 h3
              rw [h1, h3]
            simp [hp]
          · exact Or.inr ⟨h1, h3⟩

theorem insertOrIgnore_mem (rows : List (String × String)) (url it : String)
    (h : (url, it) ∈ rows) : insertOrIgnore rows url it = rows := by
  unfold insertOrIgnore
  rw [if_pos h]

theorem insertOrIgnore_not_mem (rows : List (String × String))
    (url it : String) (h : (url, it) ∉ rows) :
    insertOrIgnore rows url it = rows ++ [(url, it)] := by
  unfold insertOrIgnore
  rw [if_neg h]

theorem foldl_insertOrIgnore_split (url : String) (items : List String)
    (rows : List (String × String)) :
    ∃ extra, items.foldl (fun rs it => insertOrIgnore rs url it) rows
        = rows ++ extra
      ∧ ∀ r ∈ extra, r.1 = url := by
  induction items generalizing rows with
  | nil => exact ⟨[], by simp, by simp⟩
  | cons it its ih =>
    rw [List.foldl_cons]
    by_cases hmem : (url, it) ∈ rows
    · rw [show insertOrIgnore rows url it = rows from
        insertOrIgnore_mem rows url it hmem]
      exact ih rows
    · rw [show insertOrIgnore rows url it = rows ++ [(url, it)] from
        insertOrIgnore_not_mem rows url it hmem]
      obtain ⟨extra, heq, hall⟩ := ih (rows ++ [(url, it)])
      refine ⟨(url, it) :: extra, ?_, ?_⟩
      · rw [heq]; simp
      · intro r hr
        rcases List.mem_cons.mp hr with h | h
        · rw [h]
        · exact hall r h

theorem mem_get_seen (st : Chat) (url it : String) :
    it ∈ get_seen st url ↔ (url, it) ∈ st.seen := by
  unfold get_seen
  simp only [List.mem_map, List.mem_filter, decide_eq_true_eq]
  constructor
  · rintro ⟨r, ⟨hr, hu⟩, hit⟩
    have hp : r = (url, it) := by
      obtain ⟨r1, r2⟩ := r
      simp at hu hit
      rw [hu, hit]
    rw [← hp]
    exact hr
  · intro h
    exact ⟨(url, it), ⟨h, rfl⟩, rfl⟩

end SqlStore

namespace Svc

theorem lookup_cons_self {B : Type _} (k : String) (w : B)
    (ps : List (String × B)) : ((k, w) :: ps).lookup k = some w := by
  simp [List.lookup]

theorem lookup_cons_ne {B : Type _} (k u : String) (w : B)
    (ps : List (String × B)) (h : k ≠ u) :
    ((k, w) :: ps).lookup u = ps.lookup u := by
  have hbeq : (u == k) = false := by
    rw [beq_eq_false_iff_ne]
    exact fun hc => h hc.symm
  simp [List.lookup, hbeq]

theorem cacheSet_lookup (c : List (String × List String)) (url : String)
    (v : List String) : (cacheSet c url v).lookup url = some v := by
  unfold cacheSet
  by_cases h : (c.lookup url).isSome
  · rw [if_pos h]
    induction c with
    | nil => simp at h
    | cons p ps ih =>
      obtain ⟨k, w⟩ := p
      by_cases hp : k = url
      · subst hp
        rw [List.map_cons]
        rw [show (if (k, w).1 = k then (k, v) else (k, w)) = (k, v) by simp]
        exact lookup_cons_self k v _
      · rw [List.map_cons]
        rw [show (if (k, w).1 = url then (url, v) else (k, w)) = (k, w) by
          simp [hp]]
        rw [lookup_cons_ne k url w _ hp]
        apply ih
        rw [lookup_cons_ne k url w ps hp] at h
        exact h
  · rw [if_neg h]
    induction c with
    | nil => simp [List.lookup]
    | cons p ps ih =>
      obtain ⟨k, w⟩ := p
      by_cases hp : k = url
      · exfalso
        apply h
        subst hp
        rw [lookup_cons_self k w ps]
        rfl
      · rw [List.cons_append, lookup_cons_ne k url w _ hp]
        apply ih
        intro hcon
        apply h
        rw [lookup_cons_ne k url w ps hp]
        exact hcon

end Svc


theorem filter_filter_of_imp {A : Type _} (p q : A → Bool) (l : List A)
    (h : ∀ a, q a = true → p a = true) :
    (l.filter p).filter q = l.filter q := by
  induction l with
  | nil => rfl
  | cons a as ih =>
    by_cases hq : q a = true
    · have hp := h a hq
      simp [List.filter_cons, hp, hq, ih]
    · simp only [Bool.not_eq_true] at hq
      by_cases hp : p a = true
      · simp [List.filter_cons, hp, hq, ih]
      · simp only [Bool.not_eq_true] at hp
        simp [List.filter_cons, hp, hq, ih]


namespace Poll

theorem deliverLoop_spec (pairs : List (String × RSS.Entry))
    (seen : List String) (hnodup : (pairs.map Prod.fst).Nodup)
    (hunseen : ∀ p ∈ pairs, p.1 ∉ seen) :
    (deliverLoop pairs seen).1 = pairs.map Prod.fst
    ∧ (deliverLoop pairs seen).2.length = seen.length + pairs.length := by
  induction pairs generalizing seen with
  | nil => simp [deliverLoop]
  | cons p ps ih =>
    obtain ⟨eid, e⟩ := p
    have hein : eid ∉ seen := hunseen (eid, e) (List.mem_cons_self _ _)
    have hnodup2 : (ps.map Prod.fst).Nodup := by
      rw [List.map_cons] at hnodup
      exact (List.nodup_cons.mp hnodup).2
    have heid_not : eid ∉ ps.map Prod.fst := by
      rw [List.map_cons] at hnodup
      exact (List.nodup_cons.mp hnodup).1
    have hunseen2 : ∀ q ∈ ps, q.1 ∉ seen ++ [eid] := by
      intro q hq hmem
      rcases List.mem_append.mp hmem with h | h
      · exact hunseen q (List.mem_cons_of_mem _ hq) h
      · simp at h
        apply heid_not
        rw [← h]
        exact List.mem_map_of_mem Prod.fst hq
    have hih := ih (seen ++ [eid]) hnodup2 hunseen2
    simp only [deliverLoop]
    rw [if_neg hein]
    constructor
    · simp [hih.1]
    · show (deliverLoop ps (seen ++ [eid])).2.length
        = seen.length + ((eid, e) :: ps).length
      rw [hih.2]
      simp
      omega

theorem filterMap_keepAll (seen : List String) (l : List RSS.Entry)
    (h : ∀ e ∈ l, ¬(RSS.entry_id e = "" ∨ RSS.entry_id e ∈ seen)) :
    (l.filterMap (fun e =>
      if RSS.entry_id e = "" ∨ RSS.entry_id e ∈ seen then none
      else some (RSS.entry_id e, e)))
      = l.map (fun e => (RSS.entry_id e, e)) := by
  induction l with
  | nil => rfl
  | cons e es ih =>
    rw [List.filterMap_cons, List.map_cons]
    rw [show (if RSS.entry_id e = "" ∨ RSS.entry_id e ∈ seen then none
        else some (RSS.entry_id e, e)) = some (RSS.entry_id e, e) from
      if_neg (h e (List.mem_cons_self _ _))]
    rw [ih (fun e2 he2 => h e2 (List.mem_cons_of_mem _ he2))]

theorem newEntries_all (entries : List RSS.Entry) (seen : List String)
    (cap : Nat) (hcap : entries.length ≤ cap)
    (h : ∀ e ∈ entries, ¬(RSS.entry_id e = "" ∨ RSS.entry_id e ∈ seen)) :
    newEntries entries seen cap = entries.map (fun e => (RSS.entry_id e, e)) := by
  unfold newEntries
  rw [List.take_of_length_le hcap]
  exact filterMap_keepAll seen entries h

end Poll

namespace Summary

theorem attemptLoop_allFail (extract : String → Parsed) (k : Nat) :
    ∀ (i : Nat) (rc : String),
      attemptLoop (fun _ => "") extract k i rc = (none, rc, i + k) := by
  induction k with
  | zero => intro i rc; simp [attemptLoop]
  | succ k ih =>
    intro i rc
    simp only [attemptLoop]
    rw [if_pos trivial, ih (i + 1) rc]
    have harith : i + 1 + k = i + (k + 1) := by omega
    rw [harith]

end Summary


/-! ### Claim theorems -/

/-- Claim C8 (amended): for every input list and every cap `c ≥ 1`,
`_dedupe_cap` returns a list whose elements are the cleaned forms of input
elements (leading bullet markers/whitespace stripped, whitespace runs
collapsed), each of length at least 8, never starting with a bullet
marker or whitespace and with no two adjacent whitespace characters, with
no two elements equal case-insensitively, input order preserved (the
result is a sublist of the cleaned input), each kept element being the
cleaned form of the FIRST input element that qualifies (cleans to length
at least 8) and has its case-insensitive key (the last conjunct, stated
via `List.find?`), and with at most `c` elements.  (For `c = 0` the
Python loop appends one item before checking the cap, see the
counterexample.) -/
theorem dedupeCap_spec (l : List String) (c : Nat) (hc : 1 ≤ c) :
    (Summary.dedupeCap l c).length ≤ c
    ∧ (∀ x ∈ Summary.dedupeCap l c,
        8 ≤ x.length ∧ ∃ y ∈ l, x = Summary.cleanBullet y)
    ∧ (∀ x ∈ Summary.dedupeCap l c,
        ∀ c0, x.data.head? = some c0 → Summary.isBulletWs c0 = false)
    ∧ (∀ x ∈ Summary.dedupeCap l c,
        x.data.Chain' (fun a b => ¬(PyStr.isWs a = true ∧ PyStr.isWs b = true)))
    ∧ (Summary.dedupeCap l c).Pairwise
        (fun a b => PyStr.pyLower a ≠ PyStr.pyLower b)
    ∧ (Summary.dedupeCap l c).Sublist (l.map Summary.cleanBullet)
    ∧ (∀ x ∈ Summary.dedupeCap l c,
        (l.find? (fun b => decide (8 ≤ (Summary.cleanBullet b).length)
          && (PyStr.pyLower (Summary.cleanBullet b) == PyStr.pyLower x))).map
            Summary.cleanBullet = some x) := by
  have hmp := Summary.dedupeCapGo_mem_pairwise c l [] []
    (by intro x hx; simp at hx) (by simp)
  have hsplit := Summary.dedupeCapGo_split c l [] []
  obtain ⟨s, hs, hsub⟩ := hsplit
  refine ⟨Summary.dedupeCapGo_length c l [] [] hc, ?_, ?_, ?_, hmp.2, ?_, ?_⟩
  · intro x hx
    obtain ⟨hor, hlen⟩ := hmp.1 x hx
    rcases hor with h | h
    · simp at h
    · exact ⟨hlen, h⟩
  · intro x hx c0 hc0
    obtain ⟨hor, _⟩ := hmp.1 x hx
    rcases hor with h | ⟨y, _, he⟩
    · simp at h
    · subst he; exact Summary.cleanBullet_head y c0 hc0
  · intro x hx
    obtain ⟨hor, _⟩ := hmp.1 x hx
    rcases hor with h | ⟨y, _, he⟩
    · simp at h
    · exact he ▸ Summary.cleanBullet_no_double_ws y
  · show (Summary.dedupeCapGo c l [] []).Sublist _
    rw [hs]; simpa using hsub
  · intro x hx
    exact Summary.dedupeCapGo_firstOcc c l l [] [] [] rfl
      (by intro y hy; simp at hy) (by intro x hx; simp at hx) x hx

/-- Claim C8, counterexample to the cap bound at `c = 0`:
`_dedupe_cap(["abcdefgh"], 0)` returns a one-element list because the
Python loop appends before checking `len(out) >= cap`. -/
theorem dedupeCap_cap_zero_cex :
    Summary.dedupeCap ["abcdefgh"] 0 = ["abcdefgh"]
    ∧ ¬((Summary.dedupeCap ["abcdefgh"] 0).length ≤ 0) := by
  constructor
  · decide
  · decide

/-- Witness for `dedupeCap_spec` at a concrete input. -/
theorem dedupeCap_spec_witness :
    (Summary.dedupeCap
      ["  - hello   world", "HELLO WORLD", "short", "else item here"] 2).length ≤ 2 :=
  (dedupeCap_spec ["  - hello   world", "HELLO WORLD", "short", "else item here"]
    2 (by decide)).1

/-- Claim C9: `entry_id` is a deterministic function of the entry's
fields: it returns the entry's explicit id when present (non-empty), else
its permalink when present, else a string derived from exactly the title
and the published time (in the source, the concatenation
`f"{title}_{timestamp}"`), and it reads no other attribute of the entry;
hence deriving the id twice from unchanged content yields the same id. -/
theorem entryId_spec (e : RSS.Entry) :
    (∀ s, RSS.truthy e.id = some s → RSS.entry_id e = s)
    ∧ (RSS.truthy e.id = none →
        ∀ s, RSS.truthy e.link = some s → RSS.entry_id e = s)
    ∧ (∀ e2 : RSS.Entry, RSS.truthy e.id = none → RSS.truthy e.link = none →
        RSS.truthy e2.id = none → RSS.truthy e2.link = none →
        e.title = e2.title → e.published = e2.published →
        RSS.entry_id e = RSS.entry_id e2)
    ∧ (∀ e2 : RSS.Entry, e.id = e2.id → e.link = e2.link →
        e.title = e2.title → e.published = e2.published →
        RSS.entry_id e = RSS.entry_id e2) := by
  refine ⟨?_, ?_, ?_, ?_⟩
  · intro s hs
    unfold RSS.entry_id
    rw [hs]
  · intro hid s hs
    unfold RSS.entry_id
    rw [hid, hs]
  · intro e2 hid hlink hid2 hlink2 ht hp
    unfold RSS.entry_id
    rw [hid, hlink, hid2, hlink2, ht, hp]
  · intro e2 hid hlink ht hp
    unfold RSS.entry_id
    rw [hid, hlink, ht, hp]

/-- Witness for `entryId_spec`: the three selection cases at concrete
entries. -/
theorem entryId_spec_witness :
    RSS.entry_id ⟨some "guid-1", some "http://a/x", "T", none, none, some 5⟩ = "guid-1"
    ∧ RSS.entry_id ⟨some "", some "http://a/x", "T", none, none, some 5⟩ = "http://a/x"
    ∧ RSS.entry_id ⟨none, none, "T", none, none, some 5⟩
        = RSS.entry_id ⟨none, some "", "T", some "changed summary", none, some 5⟩ :=
  ⟨(entryId_spec _).1 "guid-1" (by decide),
   (entryId_spec _).2.1 (by decide) "http://a/x" (by decide),
   (entryId_spec _).2.2.1 _ (by decide) (by decide) (by decide) (by decide) rfl rfl⟩

/-- Claim C2: the keyword-digest flush chunks the `n` accumulated matches
for one keyword into slices of ten and sends one message per slice:
exactly `⌈n/10⌉` messages, every message except the last holding exactly
10 items, the last holding `n mod 10` items when `10 ∤ n` (all messages
holding 10 when `10 ∣ n`), the concatenation of the chunks being exactly
the accumulated list (so each item appears in exactly one message), and
the post-send seen-marking trace containing exactly one
`(source url, item id)` insertion per accumulated item, in order. -/
theorem keywordDigestChunking (l : List RSS.KwMatch) :
    (RSS.chunks10 l).length = (l.length + 9) / 10
    ∧ (∀ ch ∈ (RSS.chunks10 l).dropLast, ch.length = 10)
    ∧ (l.length % 10 ≠ 0 → l ≠ [] →
        ∃ ch, (RSS.chunks10 l).getLast? = some ch ∧ ch.length = l.length % 10)
    ∧ (l.length % 10 = 0 → ∀ ch ∈ RSS.chunks10 l, ch.length = 10)
    ∧ (RSS.chunks10 l).flatten = l
    ∧ RSS.flushSeenOps (RSS.chunks10 l)
        = l.map (fun m => (m.url, RSS.entry_id m.entry)) := by
  refine ⟨RSS.chunks10_length l, RSS.chunks10_dropLast l, ?_, ?_,
    RSS.chunks10_flatten l, RSS.flushSeenOps_chunks l⟩
  · intro hmod hne
    exact RSS.chunks10_last l hne hmod
  · intro hmod ch hch
    have hle := (RSS.chunks10_mem l ch hch).1
    by_cases hlast : ch ∈ (RSS.chunks10 l).dropLast
    · exact RSS.chunks10_dropLast l ch hlast
    · have hne : l ≠ [] := by
        intro hcon
        subst hcon
        rw [RSS.chunks10_nil] at hch
        simp at hch
      cases hcc : (RSS.chunks10 l).getLast? with
      | none =>
        exfalso
        rw [List.getLast?_eq_none_iff] at hcc
        exact RSS.chunks10_ne_nil l hne hcc
      | some lastCh =>
        have hch2 : ch = lastCh := by
          have hsplit := List.dropLast_append_getLast?
            (l := RSS.chunks10 l) lastCh hcc
          rw [← hsplit] at hch
          rcases List.mem_append.mp hch with h | h
          · exact absurd h hlast
          · simpa using h
        subst hch2
        have hmemflat : ch.length + 10 * (RSS.chunks10 l).dropLast.length
            = l.length := by
          have hsplit := List.dropLast_append_getLast?
            (l := RSS.chunks10 l) ch hcc
          have hflat := RSS.chunks10_flatten l
          rw [← hsplit] at hflat
          have := congrArg List.length hflat
          simp only [List.flatten_append, List.length_append,
            List.flatten_cons, List.flatten_nil, List.append_nil] at this
          have hdl : ((RSS.chunks10 l).dropLast.map List.length).sum
              = 10 * (RSS.chunks10 l).dropLast.length := by
            have hall : ∀ x ∈ (RSS.chunks10 l).dropLast.map List.length,
                x = 10 := by
              intro x hx
              obtain ⟨c0, hc0, hx0⟩ := List.mem_map.mp hx
              rw [← hx0]
              exact RSS.chunks10_dropLast l c0 hc0
            rw [List.eq_replicate_of_mem hall]
            simp [Nat.mul_comm]
          rw [List.length_flatten, hdl] at this
          omega
        have hpos : 0 < ch.length :=
          List.length_pos.mpr (RSS.chunks10_mem l ch hch).2
        omega

/-- Witness for `keywordDigestChunking` at `n = 23`: exactly 3 messages,
the last holding `23 mod 10 = 3` items. -/
theorem keywordDigestChunking_witness :
    (RSS.chunks10 (List.replicate 23
      (⟨"e", ⟨none, none, "T", none, none, none⟩, "F", "u"⟩ : RSS.KwMatch))).length = 3
    ∧ ∃ ch, (RSS.chunks10 (List.replicate 23
        (⟨"e", ⟨none, none, "T", none, none, none⟩, "F", "u"⟩ : RSS.KwMatch))).getLast?
          = some ch ∧ ch.length = 3 := by
  have h := keywordDigestChunking (List.replicate 23
    (⟨"e", ⟨none, none, "T", none, none, none⟩, "F", "u"⟩ : RSS.KwMatch))
  refine ⟨?_, ?_⟩
  · rw [h.1]; simp
  · have h3 := h.2.2.1 (by simp) (by simp)
    simpa using h3

/-- Claim C3, counterexample: `SQLiteStateStore.add_feed` returns `True`
even when the (subscriber, url) pair already exists (the
`IntegrityError` of the duplicate insert is swallowed and the function
unconditionally ends with `return True`). -/
theorem sqliteAddFeed_dup_cex :
    (SqlStore.add_feed ⟨["u"], [], ["u"]⟩ "u").1 = true
    ∧ (SqlStore.add_feed ⟨["u"], [], ["u"]⟩ "u").2.feeds = ["u"] := by
  constructor
  · rfl
  · rfl

/-- Claim C3 (amended): the JSON-file `StateStore.add_feed` returns
`False` on a duplicate (subscriber, url) pair and leaves the state
unchanged, and returns `True` and appends the pair otherwise; the
SQLite `SQLiteStateStore.add_feed` always returns `True`, but a
duplicate insert is ignored.  In both stores the subscription list holds
no duplicate urls afterwards. -/
theorem addFeed_spec (jst : JsonStore.Chat) (sst : SqlStore.Chat)
    (url : String) (hj : jst.feeds.Nodup) (hs : sst.feeds.Nodup) :
    (url ∈ jst.feeds →
      (JsonStore.add_feed jst url).1 = false
      ∧ (JsonStore.add_feed jst url).2 = jst)
    ∧ (url ∉ jst.feeds →
      (JsonStore.add_feed jst url).1 = true
      ∧ (JsonStore.add_feed jst url).2.feeds = jst.feeds ++ [url])
    ∧ (SqlStore.add_feed sst url).1 = true
    ∧ (url ∈ sst.feeds → (SqlStore.add_feed sst url).2.feeds = sst.feeds)
    ∧ (url ∉ sst.feeds →
        (SqlStore.add_feed sst url).2.feeds = sst.feeds ++ [url])
    ∧ (JsonStore.add_feed jst url).2.feeds.Nodup
    ∧ (SqlStore.add_feed sst url).2.feeds.Nodup := by
  refine ⟨?_, ?_, rfl, ?_, ?_, ?_, ?_⟩
  · intro hmem
    unfold JsonStore.add_feed
    rw [if_pos hmem]
    exact ⟨rfl, rfl⟩
  · intro hmem
    unfold JsonStore.add_feed
    rw [if_neg hmem]
    exact ⟨rfl, rfl⟩
  · intro hmem
    unfold SqlStore.add_feed
    simp [hmem]
  · intro hmem
    unfold SqlStore.add_feed
    simp [hmem]
  · unfold JsonStore.add_feed
    by_cases hmem : url ∈ jst.feeds
    · rw [if_pos hmem]; exact hj
    · rw [if_neg hmem]
      exact nodup_append_single hj hmem
  · unfold SqlStore.add_feed
    by_cases hmem : url ∈ sst.feeds
    · simpa [hmem] using hs
    · simpa [hmem] using nodup_append_single hs hmem

/-- Witness for `addFeed_spec` at concrete stores. -/
theorem addFeed_spec_witness :
    (JsonStore.add_feed ⟨["a"], [("a", [])]⟩ "b").1 = true
    ∧ (JsonStore.add_feed ⟨["a"], [("a", [])]⟩ "b").2.feeds = ["a", "b"]
    ∧ (SqlStore.add_feed ⟨["a"], [], ["a"]⟩ "a").2.feeds.Nodup := by
  have h := addFeed_spec ⟨["a"], [("a", [])]⟩ ⟨["a"], [], ["a"]⟩ "b"
    (by decide) (by decide)
  have h2 := addFeed_spec ⟨["a"], [("a", [])]⟩ ⟨["a"], [], ["a"]⟩ "a"
    (by decide) (by decide)
  refine ⟨(h.2.1 (by decide)).1, ?_, h2.2.2.2.2.2.2⟩
  have := (h.2.1 (by decide)).2
  rw [this]
  rfl

/-- Claim C10: for every subscriber and url without the special prefixes
`seen_admin::` / `takhfifan_seen::`, `SQLiteStateStore.set_seen` also
inserts the url into the subscriber's `feeds` table when absent (and
keeps it when present), while special-prefixed urls leave the `feeds`
table untouched; in all cases the `seen` rows of the url are replaced by
the given items and the `seen` rows of every other url are unchanged. -/
theorem setSeen_feeds_effect (st : SqlStore.Chat) (url : String)
    (items : List String) :
    (SqlStore.isSpecialSeenUrl url = false → url ∉ st.feeds →
      (SqlStore.set_seen st url items).feeds = st.feeds ++ [url])
    ∧ (SqlStore.isSpecialSeenUrl url = false → url ∈ st.feeds →
      (SqlStore.set_seen st url items).feeds = st.feeds)
    ∧ (SqlStore.isSpecialSeenUrl url = true →
      (SqlStore.set_seen st url items).feeds = st.feeds)
    ∧ (∀ it, it ∈ SqlStore.get_seen (SqlStore.set_seen st url items) url
        ↔ it ∈ items)
    ∧ (∀ u2, u2 ≠ url →
      SqlStore.get_seen (SqlStore.set_seen st url items) u2
        = SqlStore.get_seen st u2) := by
  refine ⟨?_, ?_, ?_, ?_, ?_⟩
  · intro hspec hmem
    unfold SqlStore.set_seen
    simp [hspec, hmem]
  · intro hspec hmem
    unfold SqlStore.set_seen
    simp [hspec, hmem]
  · intro hspec
    unfold SqlStore.set_seen
    simp [hspec]
  · intro it
    rw [SqlStore.mem_get_seen]
    show (url, it) ∈ items.foldl (fun rows i => SqlStore.insertOrIgnore rows url i)
      (st.seen.filter (fun r => r.1 ≠ url)) ↔ it ∈ items
    rw [SqlStore.mem_foldl_insertOrIgnore]
    constructor
    · rintro (h | ⟨_, h⟩)
      · exfalso
        have := (List.mem_filter.mp h).2
        simp at this
      · exact h
    · intro h
      exact Or.inr ⟨rfl, h⟩
  · intro u2 hu2
    obtain ⟨extra, heq, hall⟩ := SqlStore.foldl_insertOrIgnore_split url items
      (st.seen.filter (fun r => r.1 ≠ url))
    show ((items.foldl (fun rows i => SqlStore.insertOrIgnore rows url i)
        (st.seen.filter (fun r => r.1 ≠ url))).filter
          (fun r => r.1 = u2)).map (fun r => r.2)
      = (st.seen.filter (fun r => r.1 = u2)).map (fun r => r.2)
    rw [heq, List.filter_append]
    have hextra : extra.filter (fun r => r.1 = u2) = [] := by
      rw [List.filter_eq_nil_iff]
      intro r hr
      have := hall r hr
      simp [this, Ne.symm hu2]
    rw [hextra, List.append_nil]
    congr 1
    apply filter_filter_of_imp
    intro a ha
    simp only [decide_eq_true_eq] at ha ⊢
    rw [ha]
    exact hu2

/-- Witness for `setSeen_feeds_effect` at a concrete store. -/
theorem setSeen_feeds_effect_witness :
    (SqlStore.set_seen ⟨["f"], [("f", "x"), ("g", "y")], []⟩ "g" ["a", "b"]).feeds
      = ["f", "g"]
    ∧ (SqlStore.set_seen ⟨["f"], [("f", "x")], []⟩ "seen_admin::h" ["a"]).feeds
      = ["f"]
    ∧ ("a" ∈ SqlStore.get_seen
        (SqlStore.set_seen ⟨["f"], [("f", "x"), ("g", "y")], []⟩ "g" ["a", "b"]) "g"
        ↔ "a" ∈ ["a", "b"]) := by
  refine ⟨?_, ?_, ?_⟩
  · exact (setSeen_feeds_effect ⟨["f"], [("f", "x"), ("g", "y")], []⟩ "g"
      ["a", "b"]).1 (by decide) (by decide)
  · exact (setSeen_feeds_effect ⟨["f"], [("f", "x")], []⟩ "seen_admin::h"
      ["a"]).2.2.1 (by decide)
  · exact (setSeen_feeds_effect ⟨["f"], [("f", "x"), ("g", "y")], []⟩ "g"
      ["a", "b"]).2.2.2.1 "a"

/-- Claim C5: for every admin-curated source url the subscriber does not
own, the safe seen accessors touch only the in-memory admin cache: the
persistent store is unchanged by a write, the read returns the cached
value, and the url still does not appear in the subscription listing; if
the subscriber owns the url, the real persistent (subscriber, source)
namespace is used instead (cache untouched, store written and read). -/
theorem adminSeenIsolation (adminFeeds : List String) (st : Svc.SvcState)
    (url : String) (seen : List String) :
    (url ∈ adminFeeds → url ∉ st.store.feeds →
      (Svc.setSeenSafe adminFeeds st url seen).store = st.store
      ∧ url ∉ (Svc.setSeenSafe adminFeeds st url seen).store.feeds
      ∧ Svc.getSeenSafe adminFeeds (Svc.setSeenSafe adminFeeds st url seen) url
          = seen)
    ∧ (url ∈ st.store.feeds →
      (Svc.setSeenSafe adminFeeds st url seen).adminCache = st.adminCache
      ∧ (Svc.setSeenSafe adminFeeds st url seen).store
          = SqlStore.set_seen st.store url seen
      ∧ Svc.getSeenSafe adminFeeds (Svc.setSeenSafe adminFeeds st url seen) url
          = SqlStore.get_seen (SqlStore.set_seen st.store url seen) url) := by
  constructor
  · intro hadm hown
    have hcond : url ∈ adminFeeds ∧ url ∉ st.store.feeds := ⟨hadm, hown⟩
    have hset : Svc.setSeenSafe adminFeeds st url seen
        = { st with adminCache := Svc.cacheSet st.adminCache url seen } := by
      unfold Svc.setSeenSafe
      rw [if_pos hcond]
    refine ⟨by rw [hset], by rw [hset]; exact hown, ?_⟩
    rw [hset]
    unfold Svc.getSeenSafe
    rw [if_pos hcond]
    show ((Svc.cacheSet st.adminCache url seen).lookup url).getD [] = seen
    rw [Svc.cacheSet_lookup]
    rfl
  · intro hown
    have hcond : ¬(url ∈ adminFeeds ∧ url ∉ st.store.feeds) := by
      rintro ⟨_, h⟩
      exact h hown
    have hset : Svc.setSeenSafe adminFeeds st url seen
        = { st with store := SqlStore.set_seen st.store url seen } := by
      unfold Svc.setSeenSafe
      rw [if_neg hcond]
    have hfeeds : (SqlStore.set_seen st.store url seen).feeds
        = st.store.feeds := by
      unfold SqlStore.set_seen
      by_cases hspec : SqlStore.isSpecialSeenUrl url = true
      · simp [hspec]
      · simp only [Bool.not_eq_true] at hspec
        simp [hspec, hown]
    refine ⟨by rw [hset], by rw [hset], ?_⟩
    rw [hset]
    unfold Svc.getSeenSafe
    rw [if_neg]
    rintro ⟨_, h⟩
    apply h
    show url ∈ (SqlStore.set_seen st.store url seen).feeds
    rw [hfeeds]
    exact hown

/-- Witness for `adminSeenIsolation` at a concrete state. -/
theorem adminSeenIsolation_witness :
    (Svc.setSeenSafe ["http://admin/feed"]
      ⟨⟨["http://own/feed"], [], []⟩, []⟩ "http://admin/feed" ["i1"]).store
      = ⟨["http://own/feed"], [], []⟩
    ∧ Svc.getSeenSafe ["http://admin/feed"]
        (Svc.setSeenSafe ["http://admin/feed"]
          ⟨⟨["http://own/feed"], [], []⟩, []⟩ "http://admin/feed" ["i1"])
        "http://admin/feed" = ["i1"] := by
  have h := (adminSeenIsolation ["http://admin/feed"]
    ⟨⟨["http://own/feed"], [], []⟩, []⟩ "http://admin/feed" ["i1"]).1
    (by decide) (by decide)
  exact ⟨h.1, h.2.2⟩

/-- Claim C6, counterexample: `_fetch_feed` only treats status >= 400 as
failure, not every non-2xx status: a 304 response is handed to
`feedparser.parse` and a non-`None` value is returned. -/
theorem fetchFeed_non2xx_cex :
    Fetch.fetchFeed (fun _ => []) (.ok 304 "<html>not a feed</html>") = some []
    ∧ ¬(200 ≤ 304 ∧ 304 < 300) := by
  constructor
  · rfl
  · intro h
    omega

/-- Claim C6 (amended): `_fetch_feed` returns `None` and never raises
when the HTTP fetch raises or the response status is `>= 400`; any
response with status `< 400` (including non-2xx responses such as 304)
is parsed, and a body that is not a parseable feed yields a feed with no
entries, which `is_valid_feed` reports as "no feed" rather than an
error. -/
theorem fetchFeed_spec (parse : String → List RSS.Entry) :
    Fetch.fetchFeed parse .failed = none
    ∧ (∀ st body, 400 ≤ st → Fetch.fetchFeed parse (.ok st body) = none)
    ∧ (∀ st body, st < 400 →
        Fetch.fetchFeed parse (.ok st body) = some (parse body))
    ∧ (∀ st body, st < 400 → parse body = [] →
        Fetch.isValidFeed parse (.ok st body) = false) := by
  refine ⟨rfl, ?_, ?_, ?_⟩
  · intro st body h
    simp [Fetch.fetchFeed, h]
  · intro st body h
    have h2 : ¬(400 ≤ st) := by omega
    simp [Fetch.fetchFeed, h2]
  · intro st body h hparse
    have h2 : ¬(400 ≤ st) := by omega
    simp [Fetch.isValidFeed, Fetch.fetchFeed, h2, hparse]

/-- Witness for `fetchFeed_spec` at concrete responses. -/
theorem fetchFeed_spec_witness :
    Fetch.fetchFeed (fun _ => []) (.ok 404 "x") = none
    ∧ Fetch.fetchFeed (fun _ => []) (.ok 200 "x") = some []
    ∧ Fetch.isValidFeed (fun _ => []) (.ok 200 "x") = false := by
  have h := fetchFeed_spec (fun _ => [])
  exact ⟨h.2.1 404 "x" (by omega), h.2.2.1 200 "x" (by omega),
    h.2.2.2 200 "x" (by omega) rfl⟩

/-- Claim C7, counterexample: not every network fetch applies the SSRF
guard — `RSSService._fetch_feed` issues its GET for a private-host url
(the request list is non-empty), although `_is_private_host` classifies
the host as private. -/
theorem fetchGuard_cex :
    Fetcher.isPrivateHost "localhost" = true
    ∧ Fetch.rssFetchFeedRequests "http://localhost/feed"
        = ["http://localhost/feed"]
    ∧ Fetch.getHtmlRequests "http://localhost/feed"
        = ["http://localhost/feed"] := by
  refine ⟨by decide, rfl, rfl⟩

/-- Claim C7 (amended): only `fetch_article_text` applies the guards.
It rejects any url whose scheme is not http/https or whose host is
private (localhost, 127/10/192.168/172.16-31 ranges, IPv6 loopback or
link-local) before issuing any request, returning the empty string; the
main body and every AMP/mobile variant body are truncated to the
configured ceiling before use and rejected when they match a bot-wall
signature.  `_fetch_feed` and `_get_html` issue their request
unconditionally with none of these guards. -/
theorem fetchArticleGuard_spec (u : Fetcher.UrlParts) (env : Fetcher.FetchEnv) :
    (u.scheme ≠ "http" → u.scheme ≠ "https" →
      Fetcher.fetchArticleText u env = ("", 0))
    ∧ (Fetcher.isPrivateHost u.netloc = true →
      Fetcher.fetchArticleText u env = ("", 0))
    ∧ (∀ o ct h, Fetcher.acceptBody o ct = some h →
        h.length ≤ Fetcher.maxHtmlChars ∧ Fetcher.botwall h = false)
    ∧ (∀ st body ct, 400 ≤ st →
        Fetcher.acceptBody (.ok st body) ct = none)
    ∧ (∀ st body ct,
        Fetcher.botwall (PyStr.pyTake body Fetcher.maxHtmlChars) = true →
        Fetcher.acceptBody (.ok st body) ct = none)
    ∧ (∀ st body, env.main = .ok st body → st < 400 →
        Fetcher.containsSub env.mainContentType "html" = true →
        Fetcher.botwall (PyStr.pyTake body Fetcher.maxHtmlChars) = true →
        (Fetcher.fetchArticleText u env).1 = "") := by
  refine ⟨?_, ?_, ?_, ?_, ?_, ?_⟩
  · intro h1 h2
    unfold Fetcher.fetchArticleText
    rw [if_pos]
    simp [h1, h2]
  · intro hpriv
    unfold Fetcher.fetchArticleText
    by_cases hg : !(u.scheme = "http" || u.scheme = "https") || u.netloc = ""
    · rw [if_pos hg]
    · rw [if_neg hg, if_pos hpriv]
  · intro o ct h hacc
    match o with
    | .failed => simp [Fetcher.acceptBody] at hacc
    | .ok st body =>
      simp only [Fetcher.acceptBody] at hacc
      by_cases h400 : 400 ≤ st
      · rw [if_pos h400] at hacc; exact absurd hacc (by simp)
      · rw [if_neg h400] at hacc
        by_cases hct : !(Fetcher.containsSub ct "html")
        · rw [if_pos hct] at hacc; exact absurd hacc (by simp)
        · rw [if_neg hct] at hacc
          by_cases hbw : Fetcher.botwall (PyStr.pyTake body Fetcher.maxHtmlChars)
          · rw [if_pos hbw] at hacc; exact absurd hacc (by simp)
          · rw [if_neg hbw] at hacc
            have hh : h = PyStr.pyTake body Fetcher.maxHtmlChars := by
              injection hacc with h2
              exact h2.symm
            subst hh
            refine ⟨?_, by simpa using hbw⟩
            have hlen : (String.mk (body.data.take Fetcher.maxHtmlChars)).length
                = (body.data.take Fetcher.maxHtmlChars).length := rfl
            show (String.mk (body.data.take Fetcher.maxHtmlChars)).length
              ≤ Fetcher.maxHtmlChars
            rw [hlen, List.length_take]
            omega
  · intro st body ct h400
    simp only [Fetcher.acceptBody]
    rw [if_pos h400]
  · intro st body ct hbw
    simp only [Fetcher.acceptBody]
    by_cases h400 : 400 ≤ st
    · rw [if_pos h400]
    · rw [if_neg h400]
      by_cases hct : !(Fetcher.containsSub ct "html")
      · rw [if_pos hct]
      · rw [if_neg hct, if_pos hbw]
  · intro st body hmain h400 hct hbw
    unfold Fetcher.fetchArticleText
    by_cases hg : !(u.scheme = "http" || u.scheme = "https") || u.netloc = ""
    · rw [if_pos hg]
    · rw [if_neg hg]
      by_cases hpriv : Fetcher.isPrivateHost u.netloc
      · rw [if_pos hpriv]
      · rw [if_neg hpriv, hmain]
        have h2 : ¬(400 ≤ st) := by omega
        simp only []
        rw [if_neg h2]
        rw [if_neg (by simp [hct])]
        rw [if_pos hbw]

/-- Witness for `fetchArticleGuard_spec`: the guard blocks a
private-host url without any request, and a bot-wall body is rejected. -/
theorem fetchArticleGuard_witness :
    Fetcher.fetchArticleText ⟨"http", "127.0.0.1:8080"⟩
      ⟨.ok 200 "x", "text/html", [], id, fun _ t => t⟩ = ("", 0)
    ∧ Fetcher.fetchArticleText ⟨"ftp", "example.com"⟩
      ⟨.ok 200 "x", "text/html", [], id, fun _ t => t⟩ = ("", 0)
    ∧ Fetcher.acceptBody (.ok 403 "x") "text/html" = none := by
  have h1 := (fetchArticleGuard_spec ⟨"http", "127.0.0.1:8080"⟩
      ⟨.ok 200 "x", "text/html", [], id, fun _ t => t⟩).2.1 (by decide)
  have h2 := (fetchArticleGuard_spec ⟨"ftp", "example.com"⟩
      ⟨.ok 200 "x", "text/html", [], id, fun _ t => t⟩).1
      (by decide) (by decide)
  have h3 := (fetchArticleGuard_spec ⟨"http", "example.com"⟩
      ⟨.ok 200 "x", "text/html", [], id, fun _ t => t⟩).2.2.2.1
      403 "x" "text/html" (by omega)
  exact ⟨h1, h2, h3⟩

/-- Claim C4: for one subscriber and one source, with all `n ≤ cap`
listed entries unseen (non-empty, pairwise distinct ids), the generic
feed path sends exactly `n` messages in the reverse of the feed's listed
entry order (oldest first), and the (subscriber, source) seen set grows
by exactly `n` elements. -/
theorem oldestFirstDelivery (entries : List RSS.Entry) (seen0 : List String)
    (cap : Nat) (hcap : entries.length ≤ cap)
    (hok : ∀ e ∈ entries,
      ¬(RSS.entry_id e = "" ∨ RSS.entry_id e ∈ seen0))
    (hnodup : (entries.map RSS.entry_id).Nodup) :
    (Poll.processFeedGeneric entries seen0 cap).1
      = (entries.map RSS.entry_id).reverse
    ∧ (Poll.processFeedGeneric entries seen0 cap).1.length = entries.length
    ∧ (Poll.processFeedGeneric entries seen0 cap).2.length
      = seen0.length + entries.length := by
  have hnew := Poll.newEntries_all entries seen0 cap hcap hok
  have hfst : (entries.map (fun e => (RSS.entry_id e, e))).map Prod.fst
      = entries.map RSS.entry_id := by
    rw [List.map_map]
    rfl
  have hnodup2 : (((entries.map (fun e => (RSS.entry_id e, e))).reverse).map
      Prod.fst).Nodup := by
    rw [List.map_reverse, hfst, List.nodup_reverse]
    exact hnodup
  have hunseen2 : ∀ p ∈ (entries.map (fun e => (RSS.entry_id e, e))).reverse,
      p.1 ∉ seen0 := by
    intro p hp
    rw [List.mem_reverse] at hp
    obtain ⟨e, he, hpe⟩ := List.mem_map.mp hp
    rw [← hpe]
    intro hmem
    exact (hok e he) (Or.inr hmem)
  have hd := Poll.deliverLoop_spec
    ((entries.map (fun e => (RSS.entry_id e, e))).reverse) seen0 hnodup2 hunseen2
  unfold Poll.processFeedGeneric
  rw [hnew]
  refine ⟨?_, ?_, ?_⟩
  · rw [hd.1, List.map_reverse, hfst]
  · rw [hd.1]
    simp
  · rw [hd.2]
    simp

/-- Witness for `oldestFirstDelivery`: a feed listing three unseen
entries under cap 10 sends exactly the three ids, newest-listed last;
the seen set grows from 0 to 3. -/
theorem oldestFirstDelivery_witness :
    (Poll.processFeedGeneric
      [⟨none, some "l1", "t1", none, none, none⟩,
       ⟨none, some "l2", "t2", none, none, none⟩,
       ⟨none, some "l3", "t3", none, none, none⟩] [] 10).1
      = ["l3", "l2", "l1"]
    ∧ (Poll.processFeedGeneric
      [⟨none, some "l1", "t1", none, none, none⟩,
       ⟨none, some "l2", "t2", none, none, none⟩,
       ⟨none, some "l3", "t3", none, none, none⟩] [] 10).2.length = 3 := by
  have h := oldestFirstDelivery
    [⟨none, some "l1", "t1", none, none, none⟩,
     ⟨none, some "l2", "t2", none, none, none⟩,
     ⟨none, some "l3", "t3", none, none, none⟩] [] 10
    (by decide) (by decide) (by decide)
  refine ⟨?_, ?_⟩
  · rw [h.1]
    rfl
  · rw [h.2.2]
    rfl

/-- Claim C1 (the intended circuit breaker is dead code): on every
execution path `summarize_full` returns the `_fail_count` /
`_cooldown_until` state unchanged; with every external call failing it
still returns the empty result only after making `promptCount + 1 ≥ 1`
external model calls; and after `n` consecutive failing invocations from
a fresh `Summarizer` the failure counter is still `0` — strictly below
the configured threshold `summary_cb_errors = 5` — and no cooldown
window is ever set, so no call is ever short-circuited. -/
theorem summarizerNoCircuitBreaker (extract : String → Summary.Parsed)
    (forceLang : Summary.SummaryResult → Summary.SummaryResult) :
    (∀ hasKey initOk oracle title text st,
      (Summary.summarizeFull hasKey initOk oracle extract forceLang
        title text st).2.1 = st)
    ∧ (∀ title text st, Summary.baseOf title text ≠ "" →
      Summary.summarizeFull true true (fun _ => "") extract forceLang
          title text st
        = (Summary.emptyResult, st,
            Summary.promptCount (Summary.baseOf title text) + 1)
      ∧ 1 ≤ Summary.promptCount (Summary.baseOf title text) + 1)
    ∧ (∀ title text n,
      Summary.iterCalls
        (Summary.summarizeFull true true (fun _ => "") extract forceLang
          title text) n Summary.initState = Summary.initState
      ∧ Summary.initState.failCount < Summary.cbErrorThreshold
      ∧ Summary.initState.cooldownUntil = none) := by
  have hstate : ∀ hasKey initOk oracle title text st,
      (Summary.summarizeFull hasKey initOk oracle extract forceLang
        title text st).2.1 = st := by
    intro hasKey initOk oracle title text st
    unfold Summary.summarizeFull
    dsimp only []
    repeat' split
    all_goals rfl
  refine ⟨hstate, ?_, ?_⟩
  · intro title text st hbase
    constructor
    · unfold Summary.summarizeFull
      rw [if_neg hbase]
      rw [show (!true) = false from rfl]
      rw [if_neg (by simp), if_neg (by simp)]
      rw [Summary.attemptLoop_allFail extract
        (Summary.promptCount (Summary.baseOf title text)) 0 ""]
      simp only [Nat.zero_add]
      rw [show Summary.extractFR extract "" = {} from rfl]
      rw [if_neg (by simp [Summary.Parsed.tldr, Summary.Parsed.bullets])]
      rw [if_neg (by simp)]
    · omega
  · intro title text n
    refine ⟨?_, by simp [Summary.initState, Summary.cbErrorThreshold], rfl⟩
    induction n with
    | zero => rfl
    | succ n ih =>
      show Summary.iterCalls _ n
        ((Summary.summarizeFull true true (fun _ => "") extract forceLang
          title text) Summary.initState).2.1 = Summary.initState
      rw [hstate true true (fun _ => "") title text Summary.initState]
      exact ih

/-- Witness for `summarizerNoCircuitBreaker`: a concrete failing run
makes 6 external calls (5 staged prompts for a short input plus the
tldr-only fallback), returns the empty result, and 7 > 5 consecutive
failing invocations leave the breaker state untouched. -/
theorem summarizerNoCircuitBreaker_witness :
    Summary.summarizeFull true true (fun _ => "") (fun _ => {}) id
      "Breaking news" "" Summary.initState
      = (Summary.emptyResult, Summary.initState, 6)
    ∧ Summary.iterCalls
        (Summary.summarizeFull true true (fun _ => "") (fun _ => {}) id
          "Breaking news" "") 7 Summary.initState = Summary.initState := by
  have h := summarizerNoCircuitBreaker (fun _ => {}) id
  refine ⟨?_, (h.2.2 "Breaking news" "" 7).1⟩
  have h2 := (h.2.1 "Breaking news" "" Summary.initState (by decide)).1
  rw [h2]
  rfl
